import Mathlib

/-!
# Lambda-NFA simulator (`src/main.cpp`)

A shallow embedding of the classes `Test` and `LNFA` of `src/main.cpp`, and
theorems about the membership test `LNFA::check_word`.

Modelling conventions.

* `int` is `Int`: states are only stored and compared, never computed with, so
  no overflow can occur.  `char` is `Char`, `std::string` is `List Char`.  A
  `char` is one byte, so only the characters 0 to 255 stand for values of the
  program.  Equality of `char` is equality of `Char`; the order `<` of `char` is
  the order of signed bytes (`char` is signed on x86-64, where the bytes 0x80 to
  0xFF are the negative values -128 to -1), given by `char_value`.
* `unordered_set<int>` (`StateSet`) is a list of states; `insert` adds a state at
  the end when it is absent, `find(x) != end()` is list membership, and a range
  `for` walks the list.  The iteration order of an `unordered_set` is unspecified
  in C++; every theorem below speaks about membership only (or about list
  equality where the code leaves the set untouched).
* `map<TransitionInput, StateSet>` is a list of (key, value) pairs kept in the
  order of the comparator `TransitionInput::operator<`; two keys are the same key
  for the map when neither is less than the other.  `operator[]` inserts an empty
  value under a missing key, exactly as `std::map` does.
* The `while (!state_queue.empty())` loop of `lambda_closure` is run with a step
  budget computed from the state; `lambda_closure_loop_terminates` shows that the
  budget is never exhausted, so the loop always leaves through its exit test.
-/

namespace Lnfa

/-! ## `unordered_set<int>` -/

/-- The type `StateSet` of the class `LNFA`: `unordered_set<int>`. -/
abbrev StateSet := List Int

/-- Member function `unordered_set::insert`. -/
def StateSet.insert (s : StateSet) (x : Int) : StateSet :=
  if x ∈ s then s else s ++ [x]

/-! ## `TransitionInput` and `map<TransitionInput, StateSet>` -/

/-- Key type `LNFA::TransitionInput`. -/
structure TransitionInput where
  source : Int
  symbol : Char
deriving DecidableEq

/-- The integer a `char` is compared as: `char` is a signed byte, so the bytes
128 to 255 are the values -128 to -1.  A character above 255 is no `char`; it
keeps its code, which makes the function injective on all of `Char`. -/
def char_value (c : Char) : Int :=
  if 128 ≤ c.toNat ∧ c.toNat < 256 then (c.toNat : Int) - 256 else (c.toNat : Int)

/-- Comparator `TransitionInput::operator<` (lines 171-173); `symbol < rhs.symbol`
compares two `char`, as signed bytes. -/
def TransitionInput.lt (a rhs : TransitionInput) : Bool :=
  if a.source = rhs.source then decide (char_value a.symbol < char_value rhs.symbol)
  else decide (a.source < rhs.source)

/-- The type of `LNFA::transitions_`: entries in comparator order. -/
abbrev TransitionMap := List (TransitionInput × StateSet)

/-- Lookup `std::map::find`: walk past the smaller keys, then the entry met is
the one looked for exactly when the key is not smaller than it. -/
def map_find : TransitionMap → TransitionInput → Option StateSet
  | [], _ => none
  | (k', v) :: rest, k =>
    if k'.lt k then map_find rest k
    else if k.lt k' then none
    else some v

/-- Member function `std::map::count`. -/
def map_count (m : TransitionMap) (k : TransitionInput) : Nat :=
  match map_find m k with
  | some _ => 1
  | none => 0

/-- Store `v` under `k`: a write through the reference `operator[]` returns (a
new entry is put at its place in the order, an old one is overwritten). -/
def map_assign : TransitionMap → TransitionInput → StateSet → TransitionMap
  | [], k, v => [(k, v)]
  | (k', v') :: rest, k, v =>
    if k'.lt k then (k', v') :: map_assign rest k v
    else if k.lt k' then (k, v) :: (k', v') :: rest
    else (k', v) :: rest

/-- Read access `std::map::operator[]`: the value under `k`, and the map after
the call, which has gained the entry `(k, {})` when `k` was missing. -/
def map_index (m : TransitionMap) (k : TransitionInput) : TransitionMap × StateSet :=
  match map_find m k with
  | some v => (m, v)
  | none => (map_assign m k [], [])

/-! ## `class Test` -/

/-- The data members of `class Test` (the four counts are the lengths of the
vectors). -/
structure Test where
  states_ : List Int
  symbols_ : List Char
  initial_state_ : Int
  final_states_ : List Int
  transitions_ : List (Int × Char × Int)
  queries_ : List (List Char)

/-- Constant `Test::lambda`. -/
def Test.lambda : Char := '.'

/-! ## `class LNFA` -/

/-- The data members of `class LNFA`. -/
structure LNFA where
  init_state_ : Int
  current_state_ : StateSet
  total_states_ : List Int
  final_states_ : List Int
  transitions_ : TransitionMap

/-- One round of the constructor's loop over the transitions (lines 93-99). -/
def ctor_step (m : TransitionMap) (transition : Int × Char × Int) : TransitionMap :=
  let key : TransitionInput := ⟨transition.1, transition.2.1⟩
  let m1 := if map_count m key = 0 then map_assign (map_index m key).1 key [] else m
  let r := map_index m1 key
  map_assign r.1 key (StateSet.insert r.2 transition.2.2)

/-- Constructor `LNFA::LNFA(const Test&)`. -/
def LNFA.ctor (test : Test) : LNFA :=
  { init_state_ := test.initial_state_
    current_state_ := StateSet.insert [] test.initial_state_
    total_states_ := test.states_
    final_states_ := test.final_states_
    transitions_ := test.transitions_.foldl ctor_step [] }

/-- Inner loop of `input`: `for (next : ...) update_current_state.insert(next)`. -/
def insert_all : List Int → StateSet → StateSet
  | [], upd => upd
  | next :: rest, upd => insert_all rest (StateSet.insert upd next)

/-- Outer loop of `input` over the states of the configuration; the map is
threaded through because `operator[]` is applied to it. -/
def input_loop : List Int → Char → TransitionMap → StateSet → TransitionMap × StateSet
  | [], _, m, upd => (m, upd)
  | state :: rest, symbol, m, upd =>
    let transition_input : TransitionInput := ⟨state, symbol⟩
    if map_count m transition_input = 0 then input_loop rest symbol m upd
    else
      let r := map_index m transition_input
      input_loop rest symbol r.1 (insert_all r.2 upd)

/-- Member function `LNFA::input`. -/
def LNFA.input (l : LNFA) (symbol : Char) : LNFA :=
  let r := input_loop l.current_state_ symbol l.transitions_ []
  { l with current_state_ := r.2, transitions_ := r.1 }

/-- Inner loop of `lambda_closure` (lines 151-155): every destination that is
not yet in `closure` is added to it and pushed on the queue. -/
def visit : List Int → StateSet → List Int → StateSet × List Int
  | [], closure, state_queue => (closure, state_queue)
  | next :: rest, closure, state_queue =>
    if next ∈ closure then visit rest closure state_queue
    else visit rest (StateSet.insert closure next) (state_queue ++ [next])

/-- The local state of the `while` loop of `lambda_closure`. -/
structure Bfs where
  transitions_ : TransitionMap
  state_queue : List Int
  closure : StateSet

/-- The `while` loop of `lambda_closure` (lines 147-156), run for at most `fuel`
rounds; it stops earlier when the queue is empty. -/
def lambda_closure_loop : Nat → Bfs → Bfs
  | 0, b => b
  | fuel + 1, b =>
    match b.state_queue with
    | [] => b
    | current :: rest =>
      let r := map_index b.transitions_ ⟨current, Test.lambda⟩
      let v := visit r.2 b.closure rest
      lambda_closure_loop fuel ⟨r.1, v.2, v.1⟩

/-- All destinations stored in the map, entry after entry. -/
def map_dests : TransitionMap → List Int
  | [] => []
  | (_, v) :: rest => v ++ map_dests rest

/-- Number of rounds that is enough for the loop of `lambda_closure`: every
round pops one state, and a state is pushed only when it is a stored destination
that enters the closure. -/
def lambda_closure_fuel (l : LNFA) : Nat :=
  l.current_state_.length + (map_dests l.transitions_).length

/-- Member function `LNFA::lambda_closure`. -/
def LNFA.lambda_closure (l : LNFA) : LNFA :=
  let b := lambda_closure_loop (lambda_closure_fuel l)
    ⟨l.transitions_, l.current_state_, l.current_state_⟩
  { l with current_state_ := b.closure, transitions_ := b.transitions_ }

/-- Member function `LNFA::reset`. -/
def LNFA.reset (l : LNFA) : LNFA :=
  LNFA.lambda_closure { l with current_state_ := StateSet.insert [] l.init_state_ }

/-- Member function `LNFA::check_for_final_states`. -/
def LNFA.check_for_final_states (l : LNFA) : Bool :=
  l.final_states_.any (fun it => decide (it ∈ l.current_state_))

/-- The loop of `check_word` over the symbols of the word. -/
def LNFA.consume (l : LNFA) : List Char → LNFA
  | [] => l
  | symbol :: rest => LNFA.consume (LNFA.lambda_closure (LNFA.input l symbol)) rest

/-- Member function `LNFA::check_word`: the verdict and the object after the call. -/
def LNFA.check_word (l : LNFA) (word : List Char) : Bool × LNFA :=
  let l1 := LNFA.consume (LNFA.reset l) word
  (LNFA.check_for_final_states l1, l1)

/-! ## Specification vocabulary -/

/-- The destination set the map holds for a key, a missing key standing for the
empty set. -/
def dest (m : TransitionMap) (k : TransitionInput) : StateSet :=
  (map_find m k).getD []

/-- One lambda move, for a lookup function `δ` (such as `dest m`): `q` is in the
destination set of `(p, '.')`. -/
def LamStep (δ : TransitionInput → StateSet) (p q : Int) : Prop :=
  q ∈ δ ⟨p, Test.lambda⟩

/-- Reachability by zero or more lambda moves. -/
def LamReach (δ : TransitionInput → StateSet) : Int → Int → Prop :=
  Relation.ReflTransGen (LamStep δ)

/-- Number of stored destinations that are not yet in the closure. -/
def unseen (u : List Int) (cl : StateSet) : Nat :=
  (u.toFinset \ cl.toFinset).card

/-- Loop invariant of `lambda_closure`, for the map `m0` and configuration `c`
the function was entered with. -/
structure BfsInv (m0 : TransitionMap) (c : StateSet) (b : Bfs) : Prop where
  same : ∀ k, dest b.transitions_ k = dest m0 k
  base : ∀ x ∈ c, x ∈ b.closure
  queued : ∀ x ∈ b.state_queue, x ∈ b.closure
  sound : ∀ x ∈ b.closure, ∃ p ∈ c, LamReach (dest m0) p x
  pending : ∀ x ∈ b.closure, x ∈ b.state_queue ∨ ∀ y ∈ dest m0 ⟨x, Test.lambda⟩, y ∈ b.closure

/-- The states reached from the set `S` by one move on `c` followed by zero or
more lambda moves. -/
def SemStep (δ : TransitionInput → StateSet) (c : Char) (S : Int → Prop) : Int → Prop :=
  fun q => ∃ p, S p ∧ ∃ r, r ∈ δ ⟨p, c⟩ ∧ LamReach δ r q

/-- The states reached from the set `S` by the symbols of a word, each followed
by lambda moves. -/
def Sem (δ : TransitionInput → StateSet) : (Int → Prop) → List Char → Int → Prop
  | S, [] => S
  | S, c :: w => Sem δ (SemStep δ c S) w

/-- Acceptance as the simulation computes it: a final state is among the states
reached from the lambda closure of the initial state. -/
def Accepts (δ : TransitionInput → StateSet) (init : Int) (finals : List Int)
    (w : List Char) : Prop :=
  ∃ f ∈ finals, Sem δ (LamReach δ init) w f

/-- A sequence of `check_word` calls on one object. -/
def LNFA.check_words (l : LNFA) : List (List Char) → LNFA
  | [] => l
  | w :: ws => LNFA.check_words (l.check_word w).2 ws

/-- A path `p -> ... -> q` whose edges are triples of the transition list `T`,
with the list of its edge labels. -/
inductive Path (T : List (Int × Char × Int)) : Int → List Char → Int → Prop
  | nil (q : Int) : Path T q [] q
  | cons {p r q : Int} {c : Char} {labels : List Char} :
      (p, c, r) ∈ T → Path T r labels q → Path T p (c :: labels) q

/-- The word a path spells: its labels with the lambda labels deleted. -/
def spelled (labels : List Char) : List Char :=
  labels.filter (fun c => decide (c ≠ Test.lambda))

/-- Standard lambda-NFA acceptance of a word by the automaton description. -/
def Accepted (test : Test) (w : List Char) : Prop :=
  ∃ f ∈ test.final_states_, ∃ labels,
    Path test.transitions_ test.initial_state_ labels f ∧ spelled labels = w

/-! ## The simulation with an explicit bound on the loop of `lambda_closure` -/

/-- Member function `LNFA::lambda_closure` with an arbitrary bound on the number
of rounds of its `while` loop: no result when the bound is reached while the
queue is not empty. -/
def LNFA.lambda_closure_bounded (fuel : Nat) (l : LNFA) : Option LNFA :=
  let b := lambda_closure_loop fuel ⟨l.transitions_, l.current_state_, l.current_state_⟩
  match b.state_queue with
  | [] => some { l with current_state_ := b.closure, transitions_ := b.transitions_ }
  | _ :: _ => none

/-- The loop of `check_word` over the symbols, with the bounded `lambda_closure`. -/
def LNFA.consume_bounded (fuel : Nat) (l : LNFA) : List Char → Option LNFA
  | [] => some l
  | symbol :: rest =>
    match LNFA.lambda_closure_bounded fuel (LNFA.input l symbol) with
    | some l1 => LNFA.consume_bounded fuel l1 rest
    | none => none

/-- Member function `LNFA::check_word` with the bounded `lambda_closure`. -/
def LNFA.check_word_bounded (fuel : Nat) (l : LNFA) (word : List Char) : Option (Bool × LNFA) :=
  match LNFA.lambda_closure_bounded fuel
      { l with current_state_ := StateSet.insert [] l.init_state_ } with
  | none => none
  | some l0 =>
    match LNFA.consume_bounded fuel l0 word with
    | none => none
    | some l1 => some (LNFA.check_for_final_states l1, l1)

/-! ## `class Solver` -/

/-- The loop of `Solver::operator()` over the queries (lines 183-187): the
verdict of each `check_word` call is pushed at the back of `output`. -/
def Solver.answer (lnfa : LNFA) (output : List String) : List (List Char) → List String × LNFA
  | [] => (output, lnfa)
  | query :: rest =>
    let r := LNFA.check_word lnfa query
    if r.1 = true then Solver.answer r.2 (output ++ ["DA"]) rest
    else Solver.answer r.2 (output ++ ["NU"]) rest

/-- Function call `Solver::operator()`, from the loaded `Test` to the vector
`output` whose entries are then written one per line. -/
def Solver.call (test : Test) : List String :=
  (Solver.answer (LNFA.ctor test) [] test.queries_).1

/-- The token `Solver` pushes for a verdict. -/
def Solver.token (verdict : Bool) : String :=
  if verdict = true then "DA" else "NU"

/-! ## Concrete automata used as test inputs -/

/-- Automaton with a lambda edge: states 0, 1, 2, alphabet a, initial 0, final 2,
transitions (0, '.', 1) and (1, a, 2). -/
def lambda_edge : Test :=
  { states_ := [0, 1, 2], symbols_ := ['a'], initial_state_ := 0, final_states_ := [2],
    transitions_ := [(0, '.', 1), (1, 'a', 2)], queries_ := [] }

/-- Automaton without transitions: states 0 and 1, initial 0, final 1. -/
def no_edges : Test :=
  { states_ := [0, 1], symbols_ := ['a'], initial_state_ := 0, final_states_ := [1],
    transitions_ := [], queries_ := [] }

/-- Automaton whose initial state 0 is not declared and is the only final state:
declared states 1, no transitions. -/
def undeclared_final : Test :=
  { states_ := [1], symbols_ := ['a'], initial_state_ := 0, final_states_ := [0],
    transitions_ := [], queries_ := [] }

/-- Automaton whose initial state 0 is not declared and has an outgoing edge:
declared states 1, final 1, transition (0, a, 1). -/
def undeclared_source : Test :=
  { states_ := [1], symbols_ := ['a'], initial_state_ := 0, final_states_ := [1],
    transitions_ := [(0, 'a', 1)], queries_ := [] }

/-- Automaton whose initial state 0 is not declared, with declared states 1, 2,
final 2 and transition (1, a, 2). -/
def undeclared_isolated : Test :=
  { states_ := [1, 2], symbols_ := ['a'], initial_state_ := 0, final_states_ := [2],
    transitions_ := [(1, 'a', 2)], queries_ := [] }

/-- Automaton with a transition labelled by a symbol outside its alphabet:
alphabet a, transition (0, b, 1). -/
def undeclared_label : Test :=
  { states_ := [0, 1], symbols_ := ['a'], initial_state_ := 0, final_states_ := [1],
    transitions_ := [(0, 'b', 1)], queries_ := [] }

/-- Automaton with an empty declared state list: initial 0, no transitions. -/
def no_states : Test :=
  { states_ := [], symbols_ := ['a'], initial_state_ := 0, final_states_ := [],
    transitions_ := [], queries_ := [] }

/-- Automaton with a lambda edge to an undeclared state: declared states 0,
initial 0, transition (0, '.', 1). -/
def undeclared_target : Test :=
  { states_ := [0], symbols_ := ['a'], initial_state_ := 0, final_states_ := [],
    transitions_ := [(0, '.', 1)], queries_ := [] }

/-- Scenario A of the specification: states 0, 1, 2, alphabet a, b, initial 0,
final 2, transitions (0, a, 1) and (1, b, 2). -/
def scenario_a : Test :=
  { states_ := [0, 1, 2], symbols_ := ['a', 'b'], initial_state_ := 0, final_states_ := [2],
    transitions_ := [(0, 'a', 1), (1, 'b', 2)], queries_ := [] }

/-- Scenario B of the specification: states 0, 1, 2, alphabet a, initial 0,
final 2, transitions (0, '.', 1) and (1, a, 2). -/
def scenario_b : Test :=
  { states_ := [0, 1, 2], symbols_ := ['a'], initial_state_ := 0, final_states_ := [2],
    transitions_ := [(0, '.', 1), (1, 'a', 2)], queries_ := [] }

/-- Scenario C of the specification: states 0, 1, 2, 3, alphabet a, initial 0,
final 3, transitions (0, a, 1), (0, a, 2) and (1, a, 3). -/
def scenario_c : Test :=
  { states_ := [0, 1, 2, 3], symbols_ := ['a'], initial_state_ := 0, final_states_ := [3],
    transitions_ := [(0, 'a', 1), (0, 'a', 2), (1, 'a', 3)], queries_ := [] }

/-- Scenario B listed differently: the transitions in another order with one
of them twice, and the final state twice. -/
def scenario_b_relisted : Test :=
  { states_ := [0, 1, 2], symbols_ := ['a'], initial_state_ := 0, final_states_ := [2, 2],
    transitions_ := [(1, 'a', 2), (0, '.', 1), (1, 'a', 2)], queries_ := [] }

/-! # Theorems -/

/-! ## The comparator is a strict total order -/

theorem char_toNat_inj {a b : Char} (h : a.toNat = b.toNat) : a = b := by
  apply Char.ext
  cases ha : a.val
  cases hb : b.val
  simp only [Char.toNat, UInt32.toNat, ha, hb] at h
  congr
  exact BitVec.eq_of_toNat_eq h

/-- Two characters that are compared as the same integer are equal. -/
theorem char_value_inj {a b : Char} (h : char_value a = char_value b) : a = b := by
  apply char_toNat_inj
  unfold char_value at h
  split_ifs at h <;> omega

/-- The comparison of `char` is signed: the byte 0xE9 is less than the letter
a, and a key with that byte goes before a key with the letter. -/
theorem char_value_high_byte :
    char_value (Char.ofNat 233) = -23 ∧ char_value 'a' = 97 ∧
      TransitionInput.lt ⟨0, Char.ofNat 233⟩ ⟨0, 'a'⟩ = true ∧
      TransitionInput.lt ⟨0, 'a'⟩ ⟨0, Char.ofNat 233⟩ = false := by
  decide

theorem TransitionInput.lt_iff (a b : TransitionInput) :
    a.lt b = true ↔ a.source < b.source ∨
      (a.source = b.source ∧ char_value a.symbol < char_value b.symbol) := by
  unfold TransitionInput.lt
  by_cases h : a.source = b.source
  · simp [h]
  · simp [h]

theorem TransitionInput.lt_self (a : TransitionInput) : a.lt a = false := by
  cases hh : a.lt a
  · rfl
  · rw [TransitionInput.lt_iff] at hh
    rcases hh with h | ⟨_, h⟩
    · exact absurd h (lt_irrefl a.source)
    · exact absurd h (lt_irrefl (char_value a.symbol))

theorem TransitionInput.lt_chain {a b c : TransitionInput}
    (hab : a.lt b = true) (hbc : b.lt c = true) : a.lt c = true := by
  rw [TransitionInput.lt_iff] at *
  rcases hab with h1 | ⟨e1, h1⟩ <;> rcases hbc with h2 | ⟨e2, h2⟩
  · exact Or.inl (lt_trans h1 h2)
  · exact Or.inl (e2 ▸ h1)
  · exact Or.inl (e1 ▸ h2)
  · exact Or.inr ⟨e1.trans e2, lt_trans h1 h2⟩

theorem TransitionInput.eq_of_not_lt {a b : TransitionInput}
    (hab : a.lt b = false) (hba : b.lt a = false) : a = b := by
  have h1 : ¬ (a.source < b.source ∨
      (a.source = b.source ∧ char_value a.symbol < char_value b.symbol)) := by
    rw [← TransitionInput.lt_iff]; simp [hab]
  have h2 : ¬ (b.source < a.source ∨
      (b.source = a.source ∧ char_value b.symbol < char_value a.symbol)) := by
    rw [← TransitionInput.lt_iff]; simp [hba]
  push_neg at h1 h2
  have hs : a.source = b.source := le_antisymm h2.1 h1.1
  have hc : a.symbol = b.symbol :=
    char_value_inj (le_antisymm (h2.2 hs.symm) (h1.2 hs))
  cases a; cases b; simp_all

/-! ## `find`, `operator[]` and assignment -/

theorem map_find_assign_same (m : TransitionMap) (k : TransitionInput) (v : StateSet) :
    map_find (map_assign m k v) k = some v := by
  induction m with
  | nil => simp [map_assign, map_find, TransitionInput.lt_self]
  | cons e rest ih =>
    obtain ⟨k1, v1⟩ := e
    by_cases h1 : k1.lt k = true
    · simp [map_assign, map_find, h1, ih]
    · by_cases h2 : k.lt k1 = true
      · simp [map_assign, map_find, h1, h2, TransitionInput.lt_self]
      · simp [map_assign, map_find, h1, h2]

theorem map_find_assign_other (m : TransitionMap) (k k' : TransitionInput) (v : StateSet)
    (hne : k' ≠ k) : map_find (map_assign m k v) k' = map_find m k' := by
  induction m with
  | nil =>
    by_cases h1 : k.lt k' = true
    · simp [map_assign, map_find, h1]
    · by_cases h2 : k'.lt k = true
      · simp [map_assign, map_find, h1, h2]
      · exact absurd (TransitionInput.eq_of_not_lt (by simpa using h2) (by simpa using h1)) hne
  | cons e rest ih =>
    obtain ⟨k1, v1⟩ := e
    by_cases h1 : k1.lt k = true
    · by_cases h3 : k1.lt k' = true
      · simp [map_assign, map_find, h1, h3, ih]
      · simp [map_assign, map_find, h1, h3]
    · by_cases h2 : k.lt k1 = true
      · by_cases h4 : k.lt k' = true
        · simp [map_assign, map_find, h1, h2, h4]
        · by_cases h5 : k'.lt k = true
          · have h6 : k'.lt k1 = true := TransitionInput.lt_chain h5 h2
            have h7 : k1.lt k' = false := by
              cases h8 : k1.lt k'
              · rfl
              · exact absurd (TransitionInput.lt_chain h8 h5) h1
            simp [map_assign, map_find, h1, h2, h4, h5, h6, h7]
          · exact absurd (TransitionInput.eq_of_not_lt (by simpa using h5) (by simpa using h4)) hne
      · have hk : k = k1 := TransitionInput.eq_of_not_lt (by simpa using h2) (by simpa using h1)
        subst hk
        by_cases h4 : k.lt k' = true
        · simp [map_assign, map_find, TransitionInput.lt_self, h4]
        · by_cases h5 : k'.lt k = true
          · simp [map_assign, map_find, TransitionInput.lt_self, h4, h5]
          · exact absurd (TransitionInput.eq_of_not_lt (by simpa using h5) (by simpa using h4)) hne

theorem dest_assign_same (m : TransitionMap) (k : TransitionInput) (v : StateSet) :
    dest (map_assign m k v) k = v := by
  simp [dest, map_find_assign_same]

theorem dest_assign_other (m : TransitionMap) (k k' : TransitionInput) (v : StateSet)
    (hne : k' ≠ k) : dest (map_assign m k v) k' = dest m k' := by
  simp [dest, map_find_assign_other m k k' v hne]

/-- The value `operator[]` returns is the destination set of the key. -/
theorem map_index_snd (m : TransitionMap) (k : TransitionInput) :
    (map_index m k).2 = dest m k := by
  unfold map_index dest
  cases map_find m k <;> rfl

/-- The entry `operator[]` may add does not change any destination set. -/
theorem dest_map_index (m : TransitionMap) (k k' : TransitionInput) :
    dest (map_index m k).1 k' = dest m k' := by
  unfold map_index
  cases h : map_find m k with
  | some v => rfl
  | none =>
    by_cases hk : k' = k
    · subst hk
      rw [dest_assign_same]
      simp [dest, h]
    · exact dest_assign_other m k k' [] hk

theorem map_dests_assign_none (m : TransitionMap) (k : TransitionInput)
    (h : map_find m k = none) : map_dests (map_assign m k []) = map_dests m := by
  induction m with
  | nil => simp [map_assign, map_dests]
  | cons e rest ih =>
    obtain ⟨k1, v1⟩ := e
    by_cases h1 : k1.lt k = true
    · simp only [map_find, h1, if_true] at h
      simp [map_assign, map_dests, h1, ih h]
    · by_cases h2 : k.lt k1 = true
      · simp [map_assign, map_dests, h1, h2]
      · simp [map_find, h1, h2] at h

/-- The entry `operator[]` may add holds no destination. -/
theorem map_dests_map_index (m : TransitionMap) (k : TransitionInput) :
    map_dests (map_index m k).1 = map_dests m := by
  unfold map_index
  cases h : map_find m k with
  | some v => rfl
  | none => exact map_dests_assign_none m k h

theorem dest_subset_map_dests (m : TransitionMap) (k : TransitionInput) (y : Int)
    (hy : y ∈ dest m k) : y ∈ map_dests m := by
  induction m with
  | nil => simp [dest, map_find] at hy
  | cons e rest ih =>
    obtain ⟨k1, v1⟩ := e
    by_cases h1 : k1.lt k = true
    · have : dest ((k1, v1) :: rest) k = dest rest k := by simp [dest, map_find, h1]
      rw [this] at hy
      simp [map_dests, ih hy]
    · by_cases h2 : k.lt k1 = true
      · simp [dest, map_find, h1, h2] at hy
      · have : dest ((k1, v1) :: rest) k = v1 := by simp [dest, map_find, h1, h2]
        rw [this] at hy
        simp [map_dests, hy]

/-! ## The inner loop of `lambda_closure` -/

theorem StateSet.mem_insert (s : StateSet) (x y : Int) :
    y ∈ StateSet.insert s x ↔ y ∈ s ∨ y = x := by
  unfold StateSet.insert
  by_cases h : x ∈ s
  · simp only [h, if_true]
    constructor
    · exact Or.inl
    · rintro (h1 | h1)
      · exact h1
      · exact h1 ▸ h
  · simp [h]

theorem visit_closure_mem (d : List Int) (cl : StateSet) (q : List Int) (x : Int) :
    x ∈ (visit d cl q).1 ↔ x ∈ cl ∨ x ∈ d := by
  induction d generalizing cl q with
  | nil => simp [visit]
  | cons next rest ih =>
    by_cases h : next ∈ cl
    · simp only [visit, h, if_true, ih, List.mem_cons]
      constructor
      · rintro (h1 | h1)
        · exact Or.inl h1
        · exact Or.inr (Or.inr h1)
      · rintro (h1 | h1 | h1)
        · exact Or.inl h1
        · exact Or.inl (h1 ▸ h)
        · exact Or.inr h1
    · simp only [visit, h, if_false, ih, StateSet.mem_insert, List.mem_cons]
      tauto

theorem visit_queue_mem (d : List Int) (cl : StateSet) (q : List Int) (x : Int) :
    x ∈ (visit d cl q).2 ↔ x ∈ q ∨ (x ∈ d ∧ x ∉ cl) := by
  induction d generalizing cl q with
  | nil => simp [visit]
  | cons next rest ih =>
    by_cases h : next ∈ cl
    · simp only [visit, h, if_true, ih, List.mem_cons]
      constructor
      · rintro (h1 | ⟨h1, h2⟩)
        · exact Or.inl h1
        · exact Or.inr ⟨Or.inr h1, h2⟩
      · rintro (h1 | ⟨h1 | h1, h2⟩)
        · exact Or.inl h1
        · exact absurd (h1 ▸ h) h2
        · exact Or.inr ⟨h1, h2⟩
    · simp only [visit, h, if_false, ih, StateSet.mem_insert, List.mem_cons, List.mem_append,
        List.not_mem_nil, or_false]
      constructor
      · rintro ((h1 | h1) | ⟨h1, h2⟩)
        · exact Or.inl h1
        · exact Or.inr ⟨Or.inl h1, h1 ▸ h⟩
        · exact Or.inr ⟨Or.inr h1, fun hc => h2 (Or.inl hc)⟩
      · rintro (h1 | ⟨h1 | h1, h2⟩)
        · exact Or.inl (Or.inl h1)
        · exact Or.inl (Or.inr h1)
        · by_cases hx : x = next
          · exact Or.inl (Or.inr hx)
          · exact Or.inr ⟨h1, fun hc => hc.elim h2 hx⟩

/-- When every destination is already in the closure the inner loop changes
nothing. -/
theorem visit_of_subset (d : List Int) (cl : StateSet) (q : List Int)
    (h : ∀ y ∈ d, y ∈ cl) : visit d cl q = (cl, q) := by
  induction d generalizing cl q with
  | nil => rfl
  | cons next rest ih =>
    have h1 : next ∈ cl := h next (List.mem_cons_self _ _)
    simp only [visit, h1, if_true]
    exact ih cl q (fun y hy => h y (List.mem_cons_of_mem _ hy))

theorem unseen_le_length (u : List Int) (cl : StateSet) : unseen u cl ≤ u.length :=
  le_trans (Finset.card_le_card Finset.sdiff_subset) (List.toFinset_card_le u)

theorem unseen_insert (u : List Int) (cl : StateSet) (x : Int) (hu : x ∈ u) (hc : x ∉ cl) :
    unseen u (StateSet.insert cl x) + 1 ≤ unseen u cl := by
  unfold unseen
  apply Nat.succ_le_of_lt
  apply Finset.card_lt_card
  rw [Finset.ssubset_iff_of_subset]
  · refine ⟨x, ?_, ?_⟩
    · simp [hu, hc]
    · simp [StateSet.mem_insert]
  · intro y hy
    simp only [Finset.mem_sdiff, List.mem_toFinset, StateSet.mem_insert] at hy ⊢
    exact ⟨hy.1, fun h => hy.2 (Or.inl h)⟩

/-- The inner loop does not raise the measure `queue length + unseen`. -/
theorem visit_measure (u d : List Int) (cl : StateSet) (q : List Int)
    (hd : ∀ y ∈ d, y ∈ u) :
    (visit d cl q).2.length + unseen u (visit d cl q).1 ≤ q.length + unseen u cl := by
  induction d generalizing cl q with
  | nil => simp [visit]
  | cons next rest ih =>
    have hrest : ∀ y ∈ rest, y ∈ u := fun y hy => hd y (List.mem_cons_of_mem _ hy)
    by_cases h : next ∈ cl
    · simp only [visit, h, if_true]
      exact ih cl q hrest
    · simp only [visit, h, if_false]
      have h1 := ih (StateSet.insert cl next) (q ++ [next]) hrest
      have h2 := unseen_insert u cl next (hd next (List.mem_cons_self _ _)) h
      simp only [List.length_append, List.length_singleton] at h1
      omega

/-! ## The `while` loop of `lambda_closure` -/

/-- The loop leaves through its exit test: with a budget of at least
`queue length + unseen destinations` rounds the queue is empty at the end. -/
theorem lambda_closure_loop_terminates (fuel : Nat) (b : Bfs)
    (h : b.state_queue.length + unseen (map_dests b.transitions_) b.closure ≤ fuel) :
    (lambda_closure_loop fuel b).state_queue = [] := by
  induction fuel generalizing b with
  | zero =>
    have : b.state_queue.length = 0 := by omega
    simpa [lambda_closure_loop] using this
  | succ n ih =>
    obtain ⟨m, q, cl⟩ := b
    cases q with
    | nil => simp [lambda_closure_loop]
    | cons current rest =>
      simp only [lambda_closure_loop]
      apply ih
      simp only [map_dests_map_index, map_index_snd]
      have h1 := visit_measure (map_dests m) (dest m ⟨current, Test.lambda⟩) cl rest
        (fun y hy => dest_subset_map_dests m _ y hy)
      simp only [List.length_cons] at h
      omega

theorem BfsInv.init (m0 : TransitionMap) (c : StateSet) : BfsInv m0 c ⟨m0, c, c⟩ where
  same := fun _ => rfl
  base := fun _ hx => hx
  queued := fun _ hx => hx
  sound := fun x hx => ⟨x, hx, Relation.ReflTransGen.refl⟩
  pending := fun _ hx => Or.inl hx

theorem BfsInv.loop (m0 : TransitionMap) (c : StateSet) (fuel : Nat) (b : Bfs)
    (h : BfsInv m0 c b) : BfsInv m0 c (lambda_closure_loop fuel b) := by
  induction fuel generalizing b with
  | zero => simpa [lambda_closure_loop] using h
  | succ n ih =>
    obtain ⟨m, q, cl⟩ := b
    cases q with
    | nil => simpa [lambda_closure_loop] using h
    | cons current rest =>
      simp only [lambda_closure_loop]
      apply ih
      have hd : dest m ⟨current, Test.lambda⟩ = dest m0 ⟨current, Test.lambda⟩ := h.same _
      have hcur : current ∈ cl := h.queued current (List.mem_cons_self _ _)
      constructor
      · intro k
        simp only [dest_map_index]
        exact h.same k
      · intro x hx
        simp only [visit_closure_mem]
        exact Or.inl (h.base x hx)
      · intro x hx
        simp only [visit_queue_mem, visit_closure_mem, map_index_snd] at hx ⊢
        rcases hx with h1 | ⟨h1, _⟩
        · exact Or.inl (h.queued x (List.mem_cons_of_mem _ h1))
        · exact Or.inr h1
      · intro x hx
        simp only [visit_closure_mem, map_index_snd] at hx
        rcases hx with h1 | h1
        · exact h.sound x h1
        · obtain ⟨p, hp, hr⟩ := h.sound current hcur
          refine ⟨p, hp, Relation.ReflTransGen.tail hr ?_⟩
          rw [hd] at h1
          exact h1
      · intro x hx
        simp only [visit_closure_mem, visit_queue_mem, map_index_snd] at hx ⊢
        by_cases hxc : x ∈ cl
        · rcases h.pending x hxc with h1 | h1
          · simp only [List.mem_cons] at h1
            rcases h1 with h1 | h1
            · right
              intro y hy
              right
              rw [hd, ← h1]
              exact hy
            · exact Or.inl (Or.inl h1)
          · right
            intro y hy
            exact Or.inl (h1 y hy)
        · rcases hx with h1 | h1
          · exact absurd h1 hxc
          · exact Or.inl (Or.inr ⟨h1, hxc⟩)

/-- Once the closure holds the lambda destinations of every queued state and
of every state that will be queued, the loop leaves it as it is. -/
theorem lambda_closure_loop_closed (fuel : Nat) (b : Bfs)
    (h : ∀ x ∈ b.state_queue, ∀ y ∈ dest b.transitions_ ⟨x, Test.lambda⟩, y ∈ b.closure) :
    (lambda_closure_loop fuel b).closure = b.closure := by
  induction fuel generalizing b with
  | zero => rfl
  | succ n ih =>
    obtain ⟨m, q, cl⟩ := b
    cases q with
    | nil => rfl
    | cons current rest =>
      have hv : visit (map_index m ⟨current, Test.lambda⟩).2 cl rest = (cl, rest) := by
        apply visit_of_subset
        rw [map_index_snd]
        exact h current (List.mem_cons_self _ _)
      simp only [lambda_closure_loop, hv]
      rw [ih]
      intro x hx y hy
      simp only [dest_map_index] at hy
      exact h x (List.mem_cons_of_mem _ hx) y hy

/-! ## `lambda_closure` -/

theorem lambda_closure_fuel_enough (l : LNFA) :
    l.current_state_.length + unseen (map_dests l.transitions_) l.current_state_
      ≤ lambda_closure_fuel l := by
  have := unseen_le_length (map_dests l.transitions_) l.current_state_
  unfold lambda_closure_fuel
  omega

theorem lambda_closure_queue_empty (l : LNFA) :
    (lambda_closure_loop (lambda_closure_fuel l)
      ⟨l.transitions_, l.current_state_, l.current_state_⟩).state_queue = [] :=
  lambda_closure_loop_terminates _ _ (lambda_closure_fuel_enough l)

theorem lambda_closure_inv (l : LNFA) :
    BfsInv l.transitions_ l.current_state_
      (lambda_closure_loop (lambda_closure_fuel l)
        ⟨l.transitions_, l.current_state_, l.current_state_⟩) :=
  BfsInv.loop _ _ _ _ (BfsInv.init _ _)

theorem dest_lambda_closure (l : LNFA) :
    dest l.lambda_closure.transitions_ = dest l.transitions_ :=
  funext (lambda_closure_inv l).same

/-- After `lambda_closure` the configuration holds the lambda destinations of
each of its states. -/
theorem lambda_closure_is_closed (l : LNFA) (x y : Int)
    (hx : x ∈ l.lambda_closure.current_state_)
    (hy : y ∈ dest l.transitions_ ⟨x, Test.lambda⟩) :
    y ∈ l.lambda_closure.current_state_ := by
  rcases (lambda_closure_inv l).pending x hx with h | h
  · rw [lambda_closure_queue_empty] at h
    exact absurd h (List.not_mem_nil _)
  · exact h y hy

theorem mem_lambda_closure (l : LNFA) (q : Int) :
    q ∈ l.lambda_closure.current_state_ ↔
      ∃ p ∈ l.current_state_, LamReach (dest l.transitions_) p q := by
  constructor
  · exact (lambda_closure_inv l).sound q
  · rintro ⟨p, hp, hr⟩
    induction hr with
    | refl => exact (lambda_closure_inv l).base p hp
    | tail _ hstep ih => exact lambda_closure_is_closed l _ _ ih hstep

/-! ## `input` -/

theorem insert_all_mem (d : List Int) (upd : StateSet) (y : Int) :
    y ∈ insert_all d upd ↔ y ∈ upd ∨ y ∈ d := by
  induction d generalizing upd with
  | nil => simp [insert_all]
  | cons next rest ih =>
    simp only [insert_all, ih, StateSet.mem_insert, List.mem_cons]
    tauto

theorem map_count_eq_zero (m : TransitionMap) (k : TransitionInput) :
    map_count m k = 0 ↔ map_find m k = none := by
  unfold map_count
  cases map_find m k <;> simp

theorem dest_of_count_zero (m : TransitionMap) (k : TransitionInput)
    (h : map_count m k = 0) : dest m k = [] := by
  rw [map_count_eq_zero] at h
  simp [dest, h]

theorem dest_input_loop (c : List Int) (symbol : Char) (m : TransitionMap) (upd : StateSet) :
    dest (input_loop c symbol m upd).1 = dest m := by
  induction c generalizing m upd with
  | nil => rfl
  | cons state rest ih =>
    by_cases h : map_count m ⟨state, symbol⟩ = 0
    · simp only [input_loop, h, if_true]
      exact ih m upd
    · simp only [input_loop, h, if_false]
      rw [ih]
      exact funext (dest_map_index m _)

theorem mem_input_loop (c : List Int) (symbol : Char) (m : TransitionMap) (upd : StateSet)
    (y : Int) :
    y ∈ (input_loop c symbol m upd).2 ↔ y ∈ upd ∨ ∃ p ∈ c, y ∈ dest m ⟨p, symbol⟩ := by
  induction c generalizing m upd with
  | nil => simp [input_loop]
  | cons state rest ih =>
    by_cases h : map_count m ⟨state, symbol⟩ = 0
    · simp only [input_loop, h, if_true, ih, List.mem_cons, exists_eq_or_imp,
        dest_of_count_zero m _ h, List.not_mem_nil, false_or]
    · simp only [input_loop, h, if_false, ih, List.mem_cons, exists_eq_or_imp,
        insert_all_mem, map_index_snd, dest_map_index]
      tauto

theorem dest_input (l : LNFA) (symbol : Char) :
    dest (l.input symbol).transitions_ = dest l.transitions_ :=
  dest_input_loop _ _ _ _

theorem mem_input (l : LNFA) (symbol : Char) (y : Int) :
    y ∈ (l.input symbol).current_state_ ↔
      ∃ p ∈ l.current_state_, y ∈ dest l.transitions_ ⟨p, symbol⟩ := by
  simp [LNFA.input, mem_input_loop]

/-! ## Set semantics of a symbol step and of a word -/

theorem mem_step (l : LNFA) (symbol : Char) (q : Int) :
    q ∈ (l.input symbol).lambda_closure.current_state_ ↔
      SemStep (dest l.transitions_) symbol (fun p => p ∈ l.current_state_) q := by
  rw [mem_lambda_closure, dest_input]
  simp only [mem_input, SemStep]
  constructor
  · rintro ⟨r, ⟨p, hp, hr⟩, hq⟩
    exact ⟨p, hp, r, hr, hq⟩
  · rintro ⟨p, hp, r, hr, hq⟩
    exact ⟨r, ⟨p, hp, hr⟩, hq⟩

theorem dest_step (l : LNFA) (symbol : Char) :
    dest (l.input symbol).lambda_closure.transitions_ = dest l.transitions_ := by
  rw [dest_lambda_closure, dest_input]

theorem dest_consume (l : LNFA) (w : List Char) :
    dest (l.consume w).transitions_ = dest l.transitions_ := by
  induction w generalizing l with
  | nil => rfl
  | cons c w ih => simp only [LNFA.consume, ih, dest_step]

theorem mem_consume (l : LNFA) (w : List Char) (q : Int) :
    q ∈ (l.consume w).current_state_ ↔
      Sem (dest l.transitions_) (fun p => p ∈ l.current_state_) w q := by
  induction w generalizing l with
  | nil => rfl
  | cons c w ih =>
    simp only [LNFA.consume, Sem, ih, dest_step]
    have : (fun p => p ∈ (l.input c).lambda_closure.current_state_) =
        SemStep (dest l.transitions_) c (fun p => p ∈ l.current_state_) :=
      funext (fun p => propext (mem_step l c p))
    rw [this]

theorem mem_reset (l : LNFA) (q : Int) :
    q ∈ l.reset.current_state_ ↔ LamReach (dest l.transitions_) l.init_state_ q := by
  simp [LNFA.reset, mem_lambda_closure, StateSet.insert]

theorem dest_reset (l : LNFA) : dest l.reset.transitions_ = dest l.transitions_ :=
  dest_lambda_closure _

theorem check_for_final_states_iff (l : LNFA) :
    l.check_for_final_states = true ↔ ∃ f ∈ l.final_states_, f ∈ l.current_state_ := by
  simp [LNFA.check_for_final_states]

theorem final_states_consume (l : LNFA) (w : List Char) :
    (l.consume w).final_states_ = l.final_states_ := by
  induction w generalizing l with
  | nil => rfl
  | cons c w ih => rw [LNFA.consume, ih]; rfl

theorem init_state_consume (l : LNFA) (w : List Char) :
    (l.consume w).init_state_ = l.init_state_ := by
  induction w generalizing l with
  | nil => rfl
  | cons c w ih => rw [LNFA.consume, ih]; rfl

/-- The verdict of `check_word` in terms of the lookup contract of the map. -/
theorem check_word_iff_accepts (l : LNFA) (w : List Char) :
    (l.check_word w).1 = true ↔
      Accepts (dest l.transitions_) l.init_state_ l.final_states_ w := by
  have h : (fun p => p ∈ l.reset.current_state_) =
      LamReach (dest l.transitions_) l.init_state_ :=
    funext (fun p => propext (mem_reset l p))
  simp only [LNFA.check_word, check_for_final_states_iff, final_states_consume, mem_consume,
    dest_reset, h, Accepts]
  rfl

theorem dest_check_word (l : LNFA) (w : List Char) :
    dest (l.check_word w).2.transitions_ = dest l.transitions_ := by
  simp only [LNFA.check_word, dest_consume, dest_reset]

theorem check_words_frame (l : LNFA) (ws : List (List Char)) :
    dest (l.check_words ws).transitions_ = dest l.transitions_ ∧
      (l.check_words ws).init_state_ = l.init_state_ ∧
      (l.check_words ws).final_states_ = l.final_states_ := by
  induction ws generalizing l with
  | nil => exact ⟨rfl, rfl, rfl⟩
  | cons w ws ih =>
    obtain ⟨h1, h2, h3⟩ := ih (l.check_word w).2
    refine ⟨?_, ?_, ?_⟩
    · rw [LNFA.check_words, h1, dest_check_word]
    · rw [LNFA.check_words, h2]
      exact init_state_consume _ _
    · rw [LNFA.check_words, h3]
      exact final_states_consume _ _

/-! ## The constructor -/

theorem mem_dest_ctor_step (m : TransitionMap) (tr : Int × Char × Int) (k : TransitionInput)
    (y : Int) :
    y ∈ dest (ctor_step m tr) k ↔
      y ∈ dest m k ∨ (k = ⟨tr.1, tr.2.1⟩ ∧ y = tr.2.2) := by
  have h1 : ∀ k', dest (if map_count m ⟨tr.1, tr.2.1⟩ = 0
      then map_assign (map_index m ⟨tr.1, tr.2.1⟩).1 ⟨tr.1, tr.2.1⟩ [] else m) k' = dest m k' := by
    intro k'
    by_cases hc : map_count m ⟨tr.1, tr.2.1⟩ = 0
    · simp only [hc, if_true]
      by_cases hk : k' = ⟨tr.1, tr.2.1⟩
      · rw [hk, dest_assign_same, dest_of_count_zero m _ hc]
      · rw [dest_assign_other _ _ _ _ hk, dest_map_index]
    · simp only [hc, if_false]
  unfold ctor_step
  simp only []
  by_cases hk : k = ⟨tr.1, tr.2.1⟩
  · rw [hk, dest_assign_same, StateSet.mem_insert, map_index_snd, h1]
    simp
  · rw [dest_assign_other _ _ _ _ hk, dest_map_index, h1]
    simp [hk]

theorem mem_dest_foldl_ctor_step (T : List (Int × Char × Int)) (m : TransitionMap)
    (k : TransitionInput) (y : Int) :
    y ∈ dest (T.foldl ctor_step m) k ↔ y ∈ dest m k ∨ (k.source, k.symbol, y) ∈ T := by
  induction T generalizing m with
  | nil => simp
  | cons tr rest ih =>
    rw [List.foldl_cons, ih, mem_dest_ctor_step, List.mem_cons]
    obtain ⟨a, c, b⟩ := tr
    obtain ⟨ks, kc⟩ := k
    simp only [TransitionInput.mk.injEq, Prod.mk.injEq]
    tauto

/-- The map the constructor builds holds `t` under `(q, c)` exactly when
`(q, c, t)` is one of the transitions of the description. -/
theorem mem_dest_ctor (test : Test) (q : Int) (c : Char) (t : Int) :
    t ∈ dest (LNFA.ctor test).transitions_ ⟨q, c⟩ ↔ (q, c, t) ∈ test.transitions_ := by
  have h := mem_dest_foldl_ctor_step test.transitions_ [] ⟨q, c⟩ t
  have h0 : dest [] ⟨q, c⟩ = [] := rfl
  rw [h0] at h
  simpa [LNFA.ctor] using h

/-! ## Paths of the automaton -/

theorem Path.append {T : List (Int × Char × Int)} {p r q : Int} {l1 l2 : List Char}
    (h1 : Path T p l1 r) (h2 : Path T r l2 q) : Path T p (l1 ++ l2) q := by
  induction h1 with
  | nil _ => exact h2
  | cons he _ ih => exact Path.cons he (ih h2)

theorem spelled_append (l1 l2 : List Char) : spelled (l1 ++ l2) = spelled l1 ++ spelled l2 := by
  simp [spelled]

/-- Lambda reachability is a path that spells the empty word. -/
theorem path_of_lamReach (T : List (Int × Char × Int)) (δ : TransitionInput → StateSet)
    (hδ : ∀ p c r, r ∈ δ ⟨p, c⟩ ↔ (p, c, r) ∈ T) {p q : Int} (h : LamReach δ p q) :
    ∃ labels, Path T p labels q ∧ spelled labels = [] := by
  induction h with
  | refl => exact ⟨[], Path.nil p, rfl⟩
  | tail _ hstep ih =>
    obtain ⟨labels, hp, hs⟩ := ih
    refine ⟨labels ++ [Test.lambda], hp.append (Path.cons ((hδ _ _ _).mp hstep) (Path.nil _)), ?_⟩
    rw [spelled_append, hs]
    simp [spelled]

theorem path_of_sem (T : List (Int × Char × Int)) (δ : TransitionInput → StateSet)
    (hδ : ∀ p c r, r ∈ δ ⟨p, c⟩ ↔ (p, c, r) ∈ T) (w : List Char) (hw : Test.lambda ∉ w)
    (S : Int → Prop) (q : Int) (h : Sem δ S w q) :
    ∃ p, S p ∧ ∃ labels, Path T p labels q ∧ spelled labels = w := by
  induction w generalizing S with
  | nil => exact ⟨q, h, [], Path.nil q, rfl⟩
  | cons c w ih =>
    have hc : c ≠ Test.lambda := fun e => hw (e ▸ List.mem_cons_self _ _)
    have hw2 : Test.lambda ∉ w := fun e => hw (List.mem_cons_of_mem _ e)
    obtain ⟨p1, ⟨p, hp, r, hr, hlam⟩, labels, hpath, hs⟩ := ih hw2 _ h
    obtain ⟨lam, hlp, hls⟩ := path_of_lamReach T δ hδ hlam
    refine ⟨p, hp, c :: (lam ++ labels), Path.cons ((hδ _ _ _).mp hr) (hlp.append hpath), ?_⟩
    have : spelled (c :: (lam ++ labels)) = c :: spelled (lam ++ labels) := by
      simp [spelled, hc]
    rw [this, spelled_append, hls, hs]
    rfl

theorem sem_of_path (T : List (Int × Char × Int)) (δ : TransitionInput → StateSet)
    (hδ : ∀ p c r, r ∈ δ ⟨p, c⟩ ↔ (p, c, r) ∈ T) {p q : Int} {labels : List Char}
    (h : Path T p labels q) (S : Int → Prop)
    (hclosed : ∀ a b, S a → LamStep δ a b → S b) (hp : S p) :
    Sem δ S (spelled labels) q := by
  induction h generalizing S with
  | nil _ => exact hp
  | @cons p r q c labels he _ ih =>
    by_cases hc : c = Test.lambda
    · have : spelled (c :: labels) = spelled labels := by simp [spelled, hc]
      rw [this]
      apply ih S hclosed
      apply hclosed p r hp
      rw [hc] at he
      exact (hδ _ _ _).mpr he
    · have : spelled (c :: labels) = c :: spelled labels := by simp [spelled, hc]
      rw [this]
      apply ih (SemStep δ c S)
      · rintro a b ⟨p0, hp0, r0, hr0, hreach⟩ hstep
        exact ⟨p0, hp0, r0, hr0, Relation.ReflTransGen.tail hreach hstep⟩
      · exact ⟨p, hp, r, (hδ _ _ _).mpr he, Relation.ReflTransGen.refl⟩

/-- For a word without the lambda character, the acceptance computed by the
simulation is acceptance along a path. -/
theorem accepts_iff_accepted (test : Test) (δ : TransitionInput → StateSet)
    (hδ : ∀ p c r, r ∈ δ ⟨p, c⟩ ↔ (p, c, r) ∈ test.transitions_)
    (w : List Char) (hw : Test.lambda ∉ w) :
    Accepts δ test.initial_state_ test.final_states_ w ↔ Accepted test w := by
  constructor
  · rintro ⟨f, hf, hsem⟩
    obtain ⟨p, hp, labels, hpath, hs⟩ := path_of_sem _ δ hδ w hw _ f hsem
    obtain ⟨lam, hlp, hls⟩ := path_of_lamReach _ δ hδ hp
    refine ⟨f, hf, lam ++ labels, hlp.append hpath, ?_⟩
    rw [spelled_append, hls, hs]
    rfl
  · rintro ⟨f, hf, labels, hpath, hs⟩
    refine ⟨f, hf, ?_⟩
    rw [← hs]
    apply sem_of_path _ δ hδ hpath
    · intro a b ha hstep
      exact Relation.ReflTransGen.tail ha hstep
    · exact Relation.ReflTransGen.refl

/-! ## Rejection lemmas -/

/-- A state reached by a word was reached from some state of the start set. -/
theorem sem_start (δ : TransitionInput → StateSet) (w : List Char) (S : Int → Prop) (q : Int)
    (h : Sem δ S w q) : ∃ p, S p := by
  induction w generalizing S with
  | nil => exact ⟨q, h⟩
  | cons c w ih =>
    obtain ⟨_, p, hp, _⟩ := ih _ h
    exact ⟨p, hp⟩

/-- A state without outgoing lambda edge reaches only itself. -/
theorem lamReach_eq (δ : TransitionInput → StateSet) (p q : Int)
    (hp : δ ⟨p, Test.lambda⟩ = []) (h : LamReach δ p q) : q = p := by
  induction h with
  | refl => rfl
  | tail _ hstep ih =>
    subst ih
    unfold LamStep at hstep
    rw [hp] at hstep
    exact absurd hstep (List.not_mem_nil _)

/-- An initial state that is not final and has no outgoing edge rejects every
word. -/
theorem not_accepts_of_isolated (δ : TransitionInput → StateSet) (init : Int)
    (finals : List Int) (w : List Char) (hout : ∀ c, δ ⟨init, c⟩ = [])
    (hfin : init ∉ finals) : ¬ Accepts δ init finals w := by
  rintro ⟨f, hf, hsem⟩
  cases w with
  | nil =>
    have : f = init := lamReach_eq δ init f (hout _) hsem
    exact hfin (this ▸ hf)
  | cons c w =>
    obtain ⟨_, p, hp, r, hr, _⟩ := sem_start δ w _ f hsem
    have : p = init := lamReach_eq δ init p (hout _) hp
    rw [this, hout c] at hr
    exact absurd hr (List.not_mem_nil _)

/-! ## The claims -/

/-- C1: for a word without the lambda character `'.'`, `check_word` on the
constructed automaton returns true exactly when the word is accepted in the
standard sense: some path from the initial state to a final state, with every
edge a triple of the transition list, spells the word once its `'.'` labels are
deleted. -/
theorem check_word_correct (test : Test) (w : List Char) (hw : Test.lambda ∉ w) :
    ((LNFA.ctor test).check_word w).1 = true ↔ Accepted test w := by
  rw [check_word_iff_accepts]
  exact accepts_iff_accepted test _ (fun p c r => mem_dest_ctor test p c r) w hw

theorem check_word_correct_witness :
    Test.lambda ∉ ['a'] ∧
      (((LNFA.ctor lambda_edge).check_word ['a']).1 = true ↔ Accepted lambda_edge ['a']) :=
  ⟨by decide, check_word_correct lambda_edge ['a'] (by decide)⟩

/-- C2: `check_word` is history-independent: after any sequence of earlier
`check_word` calls on the same object the verdict for a word is the verdict of a
freshly constructed object, although the earlier calls may have added entries
to the transition map. -/
theorem check_word_history_independent (test : Test) (ws : List (List Char))
    (w : List Char) :
    (((LNFA.ctor test).check_words ws).check_word w).1 = ((LNFA.ctor test).check_word w).1 := by
  obtain ⟨h1, h2, h3⟩ := check_words_frame (LNFA.ctor test) ws
  rw [Bool.eq_iff_iff, check_word_iff_accepts, check_word_iff_accepts, h1, h2, h3]

/-- C3: the configuration left by `lambda_closure` is exactly the set of states
reachable from a state of the configuration it started with by zero or more
lambda transitions of the map. -/
theorem lambda_closure_exact (l : LNFA) (q : Int) :
    q ∈ l.lambda_closure.current_state_ ↔
      ∃ p ∈ l.current_state_, LamReach (dest l.transitions_) p q :=
  mem_lambda_closure l q

/-- C4: `check_word` of the empty word is `check_for_final_states` right after
`reset`, and it is true exactly when a state of the final-state list is
reachable from the initial state by lambda transitions. -/
theorem check_word_empty (l : LNFA) :
    (l.check_word []).1 = l.reset.check_for_final_states ∧
      ((l.check_word []).1 = true ↔
        ∃ f ∈ l.final_states_, LamReach (dest l.transitions_) l.init_state_ f) :=
  ⟨rfl, check_word_iff_accepts l []⟩

/-- C5: `lambda_closure` is idempotent: a second call in succession leaves the
configuration of the first call as it is. -/
theorem lambda_closure_idempotent (l : LNFA) :
    l.lambda_closure.lambda_closure.current_state_ = l.lambda_closure.current_state_ := by
  have h := lambda_closure_loop_closed (lambda_closure_fuel l.lambda_closure)
    ⟨l.lambda_closure.transitions_, l.lambda_closure.current_state_,
      l.lambda_closure.current_state_⟩
    (by
      intro x hx y hy
      rw [dest_lambda_closure] at hy
      exact lambda_closure_is_closed l x y hx hy)
  exact h

/-- C6: `lambda_closure` is extensive: every state of the configuration is
still in the configuration after the call. -/
theorem lambda_closure_extensive (l : LNFA) (x : Int) (hx : x ∈ l.current_state_) :
    x ∈ l.lambda_closure.current_state_ :=
  (lambda_closure_inv l).base x hx

theorem lambda_closure_extensive_witness :
    (0 : Int) ∈ (LNFA.ctor lambda_edge).current_state_ ∧
      (0 : Int) ∈ (LNFA.ctor lambda_edge).lambda_closure.current_state_ :=
  ⟨by decide, lambda_closure_extensive (LNFA.ctor lambda_edge) 0 (by decide)⟩

/-- C7: an automaton with an empty transition list whose initial state is not
in the final-state list rejects every word, the empty word included. -/
theorem no_transition_rejects (test : Test) (w : List Char)
    (hT : test.transitions_ = []) (hq : test.initial_state_ ∉ test.final_states_) :
    ((LNFA.ctor test).check_word w).1 = false := by
  rw [← Bool.not_eq_true, check_word_iff_accepts]
  apply not_accepts_of_isolated _ _ _ _ _ hq
  intro c
  apply List.eq_nil_iff_forall_not_mem.mpr
  intro t ht
  have h := (mem_dest_ctor test test.initial_state_ c t).mp ht
  rw [hT] at h
  exact absurd h (List.not_mem_nil _)

theorem no_transition_rejects_witness :
    no_edges.transitions_ = [] ∧ no_edges.initial_state_ ∉ no_edges.final_states_ ∧
      ((LNFA.ctor no_edges).check_word ['a']).1 = false :=
  ⟨rfl, by decide, no_transition_rejects no_edges ['a'] rfl (by decide)⟩

/-- C8, as stated, fails: the declared state list is never consulted, so an
undeclared initial state that is final accepts the empty word, and one with an
outgoing edge to a final state accepts a one-letter word. -/
theorem undeclared_initial_accepts :
    (undeclared_final.initial_state_ ∉ undeclared_final.states_ ∧
        ((LNFA.ctor undeclared_final).check_word []).1 = true) ∧
      (undeclared_source.initial_state_ ∉ undeclared_source.states_ ∧
        ((LNFA.ctor undeclared_source).check_word ['a']).1 = true) := by
  decide

/-- C8, amended: an automaton whose initial state is not in the declared state
list, whose final states are all declared and whose transitions all leave from
declared states, rejects every word. -/
theorem undeclared_initial_rejects (test : Test) (w : List Char)
    (hq : test.initial_state_ ∉ test.states_)
    (hF : ∀ f ∈ test.final_states_, f ∈ test.states_)
    (hT : ∀ tr ∈ test.transitions_, tr.1 ∈ test.states_) :
    ((LNFA.ctor test).check_word w).1 = false := by
  rw [← Bool.not_eq_true, check_word_iff_accepts]
  apply not_accepts_of_isolated
  · intro c
    apply List.eq_nil_iff_forall_not_mem.mpr
    intro t ht
    exact hq (hT _ ((mem_dest_ctor test test.initial_state_ c t).mp ht))
  · exact fun h => hq (hF _ h)

theorem undeclared_initial_rejects_witness :
    undeclared_isolated.initial_state_ ∉ undeclared_isolated.states_ ∧
      (∀ f ∈ undeclared_isolated.final_states_, f ∈ undeclared_isolated.states_) ∧
      (∀ tr ∈ undeclared_isolated.transitions_, tr.1 ∈ undeclared_isolated.states_) ∧
      ((LNFA.ctor undeclared_isolated).check_word ['a']).1 = false :=
  ⟨by decide, by decide, by decide,
    undeclared_initial_rejects undeclared_isolated ['a'] (by decide) (by decide) (by decide)⟩

/-- C9 at a failing input: the constructor leaves an empty map for the
automaton without transitions, and `check_word` of the empty word leaves a map
with the entry `((0, '.'), {})` that `operator[]` added in `lambda_closure`. -/
theorem check_word_adds_map_entry :
    (LNFA.ctor no_edges).transitions_ = [] ∧
      ((LNFA.ctor no_edges).check_word []).2.transitions_ = [(⟨0, '.'⟩, [])] := by
  decide

/-- C10, as stated, fails: `input` never consults the alphabet; a transition
labelled with an undeclared symbol is followed, and `input` of the lambda
character, which is no alphabet symbol, follows the lambda edges. -/
theorem input_undeclared_symbol_moves :
    ('b' ∉ undeclared_label.symbols_ ∧
        ((LNFA.ctor undeclared_label).input 'b').current_state_ = [1]) ∧
      (Test.lambda ∉ lambda_edge.symbols_ ∧
        ((LNFA.ctor lambda_edge).input Test.lambda).current_state_ = [1]) := by
  decide

/-- C10, amended: when every transition of the description is labelled with a
declared alphabet symbol or with `'.'`, then for every object whose map answers
lookups as the constructed map does, whatever its configuration, `input` of a
symbol that is neither declared nor `'.'` leaves the empty configuration. -/
theorem input_undeclared_symbol (test : Test) (l : LNFA) (s : Char)
    (hl : dest l.transitions_ = dest (LNFA.ctor test).transitions_)
    (hT : ∀ tr ∈ test.transitions_, tr.2.1 ∈ test.symbols_ ∨ tr.2.1 = Test.lambda)
    (hs : s ∉ test.symbols_) (hne : s ≠ Test.lambda) :
    (l.input s).current_state_ = [] := by
  apply List.eq_nil_iff_forall_not_mem.mpr
  intro y hy
  rw [mem_input, hl] at hy
  obtain ⟨p, _, hp⟩ := hy
  rcases hT _ ((mem_dest_ctor test p s y).mp hp) with h | h
  · exact hs h
  · exact hne h

theorem input_undeclared_symbol_witness :
    dest (LNFA.ctor lambda_edge).transitions_ = dest (LNFA.ctor lambda_edge).transitions_ ∧
      (∀ tr ∈ lambda_edge.transitions_, tr.2.1 ∈ lambda_edge.symbols_ ∨ tr.2.1 = Test.lambda) ∧
      'b' ∉ lambda_edge.symbols_ ∧ 'b' ≠ Test.lambda ∧
      ((LNFA.ctor lambda_edge).input 'b').current_state_ = [] :=
  ⟨rfl, by decide, by decide, by decide,
    input_undeclared_symbol lambda_edge (LNFA.ctor lambda_edge) 'b' rfl (by decide) (by decide)
      (by decide)⟩

/-! ## Termination of the simulation -/

/-- Once the queue is empty further rounds change nothing. -/
theorem lambda_closure_loop_stable (n k : Nat) (b : Bfs)
    (h : (lambda_closure_loop n b).state_queue = []) :
    lambda_closure_loop (n + k) b = lambda_closure_loop n b := by
  induction n generalizing b with
  | zero =>
    have hq : b.state_queue = [] := h
    cases k with
    | zero => rfl
    | succ k =>
      obtain ⟨m, q, cl⟩ := b
      simp only at hq
      subst hq
      simp [lambda_closure_loop]
  | succ n ih =>
    obtain ⟨m, q, cl⟩ := b
    cases q with
    | nil =>
      rw [Nat.succ_add]
      simp [lambda_closure_loop]
    | cons current rest =>
      rw [Nat.succ_add]
      simp only [lambda_closure_loop] at h ⊢
      exact ih _ h

theorem lambda_closure_bounded_eq (fuel : Nat) (l : LNFA) (h : lambda_closure_fuel l ≤ fuel) :
    LNFA.lambda_closure_bounded fuel l = some l.lambda_closure := by
  obtain ⟨k, rfl⟩ := Nat.exists_eq_add_of_le h
  unfold LNFA.lambda_closure_bounded LNFA.lambda_closure
  simp only [lambda_closure_loop_stable _ k _ (lambda_closure_queue_empty l),
    lambda_closure_queue_empty l]

theorem consume_bounded_eq (l : LNFA) (w : List Char) :
    ∃ n, ∀ fuel, n ≤ fuel → LNFA.consume_bounded fuel l w = some (l.consume w) := by
  induction w generalizing l with
  | nil => exact ⟨0, fun _ _ => rfl⟩
  | cons c w ih =>
    obtain ⟨n, hn⟩ := ih (l.input c).lambda_closure
    refine ⟨max (lambda_closure_fuel (l.input c)) n, fun fuel hf => ?_⟩
    have h1 : lambda_closure_fuel (l.input c) ≤ fuel := le_trans (le_max_left _ _) hf
    have h2 : n ≤ fuel := le_trans (le_max_right _ _) hf
    simp only [LNFA.consume_bounded, lambda_closure_bounded_eq fuel _ h1, LNFA.consume]
    exact hn fuel h2

theorem check_word_bounded_eq (l : LNFA) (w : List Char) :
    ∃ n, ∀ fuel, n ≤ fuel → LNFA.check_word_bounded fuel l w = some (l.check_word w) := by
  obtain ⟨n, hn⟩ := consume_bounded_eq l.reset w
  refine ⟨max (lambda_closure_fuel
    { l with current_state_ := StateSet.insert [] l.init_state_ }) n, fun fuel hf => ?_⟩
  have h1 := le_trans (le_max_left _ _) hf
  have h2 : n ≤ fuel := le_trans (le_max_right _ _) hf
  have h3 := hn fuel h2
  unfold LNFA.reset at h3
  simp only [LNFA.check_word_bounded, lambda_closure_bounded_eq fuel _ h1, h3]
  rfl

/-! ## Size of the closure -/

theorem StateSet.nodup_insert (s : StateSet) (x : Int) (h : s.Nodup) :
    (StateSet.insert s x).Nodup := by
  unfold StateSet.insert
  by_cases hx : x ∈ s
  · simpa [hx] using h
  · simp only [hx, if_false]
    rw [List.nodup_append]
    refine ⟨h, List.nodup_singleton x, ?_⟩
    intro a ha hb
    rw [List.mem_singleton] at hb
    exact hx (hb ▸ ha)

theorem visit_nodup (d : List Int) (cl : StateSet) (q : List Int) (h : cl.Nodup) :
    (visit d cl q).1.Nodup := by
  induction d generalizing cl q with
  | nil => exact h
  | cons next rest ih =>
    by_cases hn : next ∈ cl
    · simp only [visit, hn, if_true]
      exact ih cl q h
    · simp only [visit, hn, if_false]
      exact ih _ _ (StateSet.nodup_insert cl next h)

theorem lambda_closure_loop_nodup (fuel : Nat) (b : Bfs) (h : b.closure.Nodup) :
    (lambda_closure_loop fuel b).closure.Nodup := by
  induction fuel generalizing b with
  | zero => exact h
  | succ n ih =>
    obtain ⟨m, q, cl⟩ := b
    cases q with
    | nil => exact h
    | cons current rest =>
      simp only [lambda_closure_loop]
      exact ih _ (visit_nodup _ _ _ h)

theorem lambda_closure_nodup (l : LNFA) (h : l.current_state_.Nodup) :
    l.lambda_closure.current_state_.Nodup :=
  lambda_closure_loop_nodup _ _ h

theorem lambda_closure_subset (l : LNFA) (u : List Int)
    (hC : ∀ x ∈ l.current_state_, x ∈ u)
    (hT : ∀ p, ∀ y ∈ dest l.transitions_ ⟨p, Test.lambda⟩, y ∈ u) :
    ∀ q ∈ l.lambda_closure.current_state_, q ∈ u := by
  intro q hq
  obtain ⟨p, hp, hr⟩ := (mem_lambda_closure l q).mp hq
  induction hr with
  | refl => exact hC p hp
  | tail _ hstep _ => exact hT _ _ hstep

/-! ## The query loop of `Solver` -/

/-- The verdict of `check_word` is the same on two objects with the same
initial state, final states and map lookups. -/
theorem check_word_congr (l1 l2 : LNFA) (w : List Char)
    (hd : dest l1.transitions_ = dest l2.transitions_)
    (hi : l1.init_state_ = l2.init_state_) (hf : l1.final_states_ = l2.final_states_) :
    (l1.check_word w).1 = (l2.check_word w).1 := by
  rw [Bool.eq_iff_iff, check_word_iff_accepts, check_word_iff_accepts, hd, hi, hf]

theorem solver_answer_eq (l : LNFA) (output : List String) (qs : List (List Char)) :
    (Solver.answer l output qs).1 =
      output ++ qs.map (fun q => Solver.token (l.check_word q).1) := by
  induction qs generalizing l output with
  | nil => simp [Solver.answer]
  | cons query rest ih =>
    have hc : ∀ q, ((l.check_word query).2.check_word q).1 = (l.check_word q).1 :=
      fun q => check_word_congr _ _ q (dest_check_word l query)
        (init_state_consume _ _) (final_states_consume _ _)
    cases hv : (l.check_word query).1
    · simp [Solver.answer, hv, ih, hc, Solver.token]
    · simp [Solver.answer, hv, ih, hc, Solver.token]

/-! ## The claims, continued -/

/-- C11: `check_word` is total: for every object of the class (hence for every
automaton description, with or without lambda cycles and self-loops) and every
word there is a number of rounds such that, with at least that many rounds
allowed to each run of the loop of `lambda_closure`, every such loop leaves
through its empty-queue test and `check_word` returns its verdict, the one
`check_word` computes with its own round budget. -/
theorem check_word_total (l : LNFA) (w : List Char) :
    ∃ n, ∀ fuel, n ≤ fuel → LNFA.check_word_bounded fuel l w = some (l.check_word w) :=
  check_word_bounded_eq l w

/-- C12, as stated, fails: the declared state list is never consulted, so with
an empty declared list the closure of the initial state has one state, and with
one declared state and a lambda edge to an undeclared state it has two. -/
theorem lambda_closure_exceeds_declared :
    ¬ ((LNFA.ctor no_states).lambda_closure.current_state_.length
        ≤ (LNFA.ctor no_states).total_states_.length) ∧
      ¬ ((LNFA.ctor undeclared_target).lambda_closure.current_state_.length
        ≤ (LNFA.ctor undeclared_target).total_states_.length) := by
  decide

/-- C12, amended: when the configuration is a set of declared states and every
destination of a lambda transition is a declared state, the configuration
produced by `lambda_closure` has at most as many states as the declared state
list is long. -/
theorem lambda_closure_size_le (l : LNFA) (hn : l.current_state_.Nodup)
    (hC : ∀ x ∈ l.current_state_, x ∈ l.total_states_)
    (hT : ∀ p, ∀ y ∈ dest l.transitions_ ⟨p, Test.lambda⟩, y ∈ l.total_states_) :
    l.lambda_closure.current_state_.length ≤ l.total_states_.length :=
  ((lambda_closure_nodup l hn).subperm (lambda_closure_subset l _ hC hT)).length_le

theorem lambda_closure_size_le_witness :
    (LNFA.ctor scenario_b).current_state_.Nodup ∧
      (∀ x ∈ (LNFA.ctor scenario_b).current_state_, x ∈ (LNFA.ctor scenario_b).total_states_) ∧
      (∀ p, ∀ y ∈ dest (LNFA.ctor scenario_b).transitions_ ⟨p, Test.lambda⟩,
        y ∈ (LNFA.ctor scenario_b).total_states_) ∧
      (LNFA.ctor scenario_b).lambda_closure.current_state_.length
        ≤ (LNFA.ctor scenario_b).total_states_.length :=
  have hT : ∀ p, ∀ y ∈ dest (LNFA.ctor scenario_b).transitions_ ⟨p, Test.lambda⟩,
      y ∈ (LNFA.ctor scenario_b).total_states_ := by
    intro p y hy
    have h := (mem_dest_ctor scenario_b p Test.lambda y).mp hy
    simp [scenario_b, Test.lambda] at h
    simp [LNFA.ctor, scenario_b, h.2]
  ⟨by decide, by decide, hT, lambda_closure_size_le (LNFA.ctor scenario_b) (by decide) (by decide) hT⟩

/-- C13: `Solver` produces one verdict per query, in query order: the output
vector is as long as the query list and its entry at each index is "DA" when
`check_word` of the query at that index is true and "NU" otherwise. -/
theorem solver_one_verdict_per_query (test : Test) :
    (Solver.call test).length = test.queries_.length ∧
      ∀ i : Fin test.queries_.length,
        (Solver.call test)[i.val]? =
          some (if ((LNFA.ctor test).check_word (test.queries_.get i)).1 = true
            then "DA" else "NU") := by
  have h : Solver.call test =
      test.queries_.map (fun q => Solver.token ((LNFA.ctor test).check_word q).1) := by
    unfold Solver.call
    rw [solver_answer_eq]
    rfl
  refine ⟨by rw [h, List.length_map], fun i => ?_⟩
  rw [h, List.getElem?_map, List.getElem?_eq_getElem i.isLt]
  rfl

/-- C14: scenario A: `check_word` accepts "ab" and rejects "ba" and "a". -/
theorem scenario_a_verdicts :
    ((LNFA.ctor scenario_a).check_word ['a', 'b']).1 = true ∧
      ((LNFA.ctor scenario_a).check_word ['b', 'a']).1 = false ∧
      ((LNFA.ctor scenario_a).check_word ['a']).1 = false := by
  decide

/-- C15: scenario B, with a lambda edge: `check_word` accepts "a" and rejects
the empty word and "aa". -/
theorem scenario_b_verdicts :
    ((LNFA.ctor scenario_b).check_word ['a']).1 = true ∧
      ((LNFA.ctor scenario_b).check_word []).1 = false ∧
      ((LNFA.ctor scenario_b).check_word ['a', 'a']).1 = false := by
  decide

/-- C16: scenario C, non-determinism: `check_word` accepts "aa" although the
branch through state 2 dead-ends: after the first symbol the configuration
holds both 1 and 2, and state 2 has no outgoing transition. -/
theorem scenario_c_verdict :
    ((LNFA.ctor scenario_c).check_word ['a', 'a']).1 = true ∧
      (1 : Int) ∈ ((LNFA.ctor scenario_c).reset.consume ['a']).current_state_ ∧
      (2 : Int) ∈ ((LNFA.ctor scenario_c).reset.consume ['a']).current_state_ ∧
      (∀ tr ∈ scenario_c.transitions_, tr.1 ≠ 2) := by
  decide

/-- C17: a symbol step computes the closed union of destination sets: after
`input` and `lambda_closure` the configuration holds exactly the states that
are lambda-reachable from a state of the union, over the states `p` of the
configuration before, of the destination sets stored for `(p, s)`; a key that
is absent from the map contributes the empty set. -/
theorem input_then_closure (l : LNFA) (s : Char) :
    (∀ q, q ∈ (l.input s).lambda_closure.current_state_ ↔
        ∃ r, (∃ p ∈ l.current_state_, r ∈ dest l.transitions_ ⟨p, s⟩) ∧
          LamReach (dest l.transitions_) r q) ∧
      (∀ p, map_count l.transitions_ ⟨p, s⟩ = 0 → dest l.transitions_ ⟨p, s⟩ = []) := by
  refine ⟨fun q => ?_, fun p hp => dest_of_count_zero _ _ hp⟩
  rw [mem_step]
  constructor
  · rintro ⟨p, hp, r, hr, hq⟩
    exact ⟨r, ⟨p, hp, hr⟩, hq⟩
  · rintro ⟨r, ⟨p, hp, hr⟩, hq⟩
    exact ⟨p, hp, r, hr, hq⟩

/-! ## Keys of the constructed map -/

theorem map_find_map_index_other (m : TransitionMap) (k k' : TransitionInput) (hne : k' ≠ k) :
    map_find (map_index m k).1 k' = map_find m k' := by
  unfold map_index
  cases h : map_find m k with
  | some v => rfl
  | none => exact map_find_assign_other m k k' [] hne

theorem map_find_ctor_step_other (m : TransitionMap) (tr : Int × Char × Int)
    (k : TransitionInput) (hne : k ≠ ⟨tr.1, tr.2.1⟩) :
    map_find (ctor_step m tr) k = map_find m k := by
  unfold ctor_step
  simp only []
  rw [map_find_assign_other _ _ _ _ hne, map_find_map_index_other _ _ _ hne]
  by_cases hc : map_count m ⟨tr.1, tr.2.1⟩ = 0
  · simp only [hc, if_true]
    rw [map_find_assign_other _ _ _ _ hne, map_find_map_index_other _ _ _ hne]
  · simp only [hc, if_false]

theorem map_count_foldl_ctor_step (T : List (Int × Char × Int)) (m : TransitionMap)
    (k : TransitionInput) (h : map_count (T.foldl ctor_step m) k ≠ 0) :
    map_count m k ≠ 0 ∨ ∃ t, (k.source, k.symbol, t) ∈ T := by
  induction T generalizing m with
  | nil => exact Or.inl h
  | cons tr rest ih =>
    rw [List.foldl_cons] at h
    rcases ih _ h with h1 | ⟨t, ht⟩
    · by_cases hk : k = ⟨tr.1, tr.2.1⟩
      · right
        refine ⟨tr.2.2, ?_⟩
        rw [hk]
        exact List.mem_cons_self _ _
      · left
        unfold map_count at h1 ⊢
        rw [map_find_ctor_step_other m tr k hk] at h1
        exact h1
    · exact Or.inr ⟨t, List.mem_cons_of_mem _ ht⟩

/-! ## The empty configuration -/

theorem consume_append (l : LNFA) (u v : List Char) :
    l.consume (u ++ v) = (l.consume u).consume v := by
  induction u generalizing l with
  | nil => rfl
  | cons c u ih => exact ih (l.input c).lambda_closure

theorem input_of_empty (l : LNFA) (s : Char) (h : l.current_state_ = []) :
    (l.input s).current_state_ = [] := by
  apply List.eq_nil_iff_forall_not_mem.mpr
  intro y hy
  rw [mem_input, h] at hy
  obtain ⟨p, hp, _⟩ := hy
  exact absurd hp (List.not_mem_nil _)

theorem lambda_closure_of_empty (l : LNFA) (h : l.current_state_ = []) :
    l.lambda_closure.current_state_ = [] := by
  apply List.eq_nil_iff_forall_not_mem.mpr
  intro y hy
  rw [mem_lambda_closure, h] at hy
  obtain ⟨p, hp, _⟩ := hy
  exact absurd hp (List.not_mem_nil _)

theorem consume_of_empty (l : LNFA) (v : List Char) (h : l.current_state_ = []) :
    (l.consume v).current_state_ = [] := by
  induction v generalizing l with
  | nil => exact h
  | cons c v ih => exact ih _ (lambda_closure_of_empty _ (input_of_empty l c h))

theorem check_for_final_states_of_empty (l : LNFA) (h : l.current_state_ = []) :
    l.check_for_final_states = false := by
  simp [LNFA.check_for_final_states, h]

/-! ## Independence of the listing -/

theorem lamReach_congr (δ1 δ2 : TransitionInput → StateSet)
    (h : ∀ k y, y ∈ δ1 k ↔ y ∈ δ2 k) (p q : Int) : LamReach δ1 p q ↔ LamReach δ2 p q := by
  constructor
  · exact Relation.ReflTransGen.mono (fun a b hab => (h _ _).mp hab)
  · exact Relation.ReflTransGen.mono (fun a b hab => (h _ _).mpr hab)

theorem sem_congr (δ1 δ2 : TransitionInput → StateSet)
    (h : ∀ k y, y ∈ δ1 k ↔ y ∈ δ2 k) (w : List Char) (S1 S2 : Int → Prop)
    (hS : ∀ q, S1 q ↔ S2 q) (q : Int) : Sem δ1 S1 w q ↔ Sem δ2 S2 w q := by
  induction w generalizing S1 S2 with
  | nil => exact hS q
  | cons c w ih =>
    apply ih
    intro q1
    unfold SemStep
    constructor
    · rintro ⟨p, hp, r, hr, hq⟩
      exact ⟨p, (hS p).mp hp, r, (h _ _).mp hr, (lamReach_congr δ1 δ2 h r q1).mp hq⟩
    · rintro ⟨p, hp, r, hr, hq⟩
      exact ⟨p, (hS p).mpr hp, r, (h _ _).mpr hr, (lamReach_congr δ1 δ2 h r q1).mpr hq⟩

theorem accepts_congr (δ1 δ2 : TransitionInput → StateSet)
    (h : ∀ k y, y ∈ δ1 k ↔ y ∈ δ2 k) (init : Int) (F1 F2 : List Int)
    (hF : ∀ f, f ∈ F1 ↔ f ∈ F2) (w : List Char) :
    Accepts δ1 init F1 w ↔ Accepts δ2 init F2 w := by
  unfold Accepts
  constructor
  · rintro ⟨f, hf, hs⟩
    exact ⟨f, (hF f).mp hf, (sem_congr δ1 δ2 h w _ _ (lamReach_congr δ1 δ2 h init) f).mp hs⟩
  · rintro ⟨f, hf, hs⟩
    exact ⟨f, (hF f).mpr hf, (sem_congr δ1 δ2 h w _ _ (lamReach_congr δ1 δ2 h init) f).mpr hs⟩

/-! ## The claims, concluded -/

/-- C18: the constructor builds the transition relation faithfully: `t` is in
the destination set of the constructed map for `(q, c)` exactly when `(q, c, t)`
is in the transition list; a key is present in the map only if some triple of
the list has that source and symbol; and the comparator `operator<`, which
compares the sources as `int` and the symbols as signed `char`, identifies two
keys (neither is less than the other) only when they agree in source and
symbol. -/
theorem ctor_faithful (test : Test) :
    (∀ q c t, t ∈ dest (LNFA.ctor test).transitions_ ⟨q, c⟩ ↔ (q, c, t) ∈ test.transitions_) ∧
      (∀ q c, map_count (LNFA.ctor test).transitions_ ⟨q, c⟩ ≠ 0 →
        ∃ t, (q, c, t) ∈ test.transitions_) ∧
      (∀ a b : TransitionInput, a.lt b = false ∧ b.lt a = false →
        a.source = b.source ∧ a.symbol = b.symbol) := by
  refine ⟨mem_dest_ctor test, fun q c h => ?_, fun a b h => ?_⟩
  · rcases map_count_foldl_ctor_step test.transitions_ [] ⟨q, c⟩ h with h1 | h1
    · exact absurd rfl h1
    · exact h1
  · have := TransitionInput.eq_of_not_lt h.1 h.2
    subst this
    exact ⟨rfl, rfl⟩

/-- C19: an empty configuration is rejecting and terminal:
`check_for_final_states` is false on an empty configuration, and when the
configuration after `reset` and the symbols of `u` is empty, so is the
configuration after the symbols of `u ++ v`, and `check_word (u ++ v)` is false. -/
theorem empty_configuration_terminal :
    (∀ l : LNFA, l.current_state_ = [] → l.check_for_final_states = false) ∧
      (∀ (l : LNFA) (u v : List Char), (l.reset.consume u).current_state_ = [] →
        (l.reset.consume (u ++ v)).current_state_ = [] ∧ (l.check_word (u ++ v)).1 = false) := by
  refine ⟨check_for_final_states_of_empty, fun l u v h => ?_⟩
  have h1 : (l.reset.consume (u ++ v)).current_state_ = [] := by
    rw [consume_append]
    exact consume_of_empty _ v h
  exact ⟨h1, check_for_final_states_of_empty _ h1⟩

theorem empty_configuration_terminal_witness :
    ((LNFA.ctor scenario_b).reset.consume ['a', 'a']).current_state_ = [] ∧
      (((LNFA.ctor scenario_b).reset.consume (['a', 'a'] ++ ['a'])).current_state_ = [] ∧
        ((LNFA.ctor scenario_b).check_word (['a', 'a'] ++ ['a'])).1 = false) :=
  ⟨by decide,
    empty_configuration_terminal.2 (LNFA.ctor scenario_b) ['a', 'a'] ['a'] (by decide)⟩

/-- C20: `check_word` depends only on the sets of transitions and of final
states: two descriptions with the same initial state whose transition lists
hold the same triples and whose final-state lists hold the same states, in any
order and with any repetitions, give the same verdict for every word. -/
theorem check_word_listing_independent (t1 t2 : Test) (w : List Char)
    (hi : t1.initial_state_ = t2.initial_state_)
    (hT12 : ∀ tr ∈ t1.transitions_, tr ∈ t2.transitions_)
    (hT21 : ∀ tr ∈ t2.transitions_, tr ∈ t1.transitions_)
    (hF12 : ∀ f ∈ t1.final_states_, f ∈ t2.final_states_)
    (hF21 : ∀ f ∈ t2.final_states_, f ∈ t1.final_states_) :
    ((LNFA.ctor t1).check_word w).1 = ((LNFA.ctor t2).check_word w).1 := by
  rw [Bool.eq_iff_iff, check_word_iff_accepts, check_word_iff_accepts]
  have hi2 : (LNFA.ctor t1).init_state_ = (LNFA.ctor t2).init_state_ := hi
  rw [hi2]
  apply accepts_congr
  · intro k y
    obtain ⟨q, c⟩ := k
    rw [mem_dest_ctor, mem_dest_ctor]
    exact ⟨hT12 _, hT21 _⟩
  · exact fun f => ⟨hF12 f, hF21 f⟩

theorem check_word_listing_independent_witness :
    scenario_b.initial_state_ = scenario_b_relisted.initial_state_ ∧
      (∀ tr ∈ scenario_b.transitions_, tr ∈ scenario_b_relisted.transitions_) ∧
      (∀ tr ∈ scenario_b_relisted.transitions_, tr ∈ scenario_b.transitions_) ∧
      (∀ f ∈ scenario_b.final_states_, f ∈ scenario_b_relisted.final_states_) ∧
      (∀ f ∈ scenario_b_relisted.final_states_, f ∈ scenario_b.final_states_) ∧
      ((LNFA.ctor scenario_b).check_word ['a']).1 =
        ((LNFA.ctor scenario_b_relisted).check_word ['a']).1 :=
  ⟨rfl, by decide, by decide, by decide, by decide,
    check_word_listing_independent scenario_b scenario_b_relisted ['a'] rfl
      (by decide) (by decide) (by decide) (by decide)⟩

end Lnfa
